import Mathlib

/-!
Shallow embedding of the TextStation text-analysis core
(`getMediaRules` and `analyzeText` in the text-processor module,
plus the pieces of JavaScript string semantics they rely on).

JavaScript strings are modelled as Lean `String`s (lists of characters);
the JS regular-expression patterns that occur in the analyzer are used as
plain literal patterns, and a global match count is the number of
leftmost non-overlapping occurrences, which is what a global regex scan
produces for such patterns.  The `endingPatterns` plain object of the
source is modelled as an insertion-ordered association list, and
`Object.entries` enumeration order follows the ECMAScript own-property
order: keys that are canonical array indices first, in ascending numeric
order, then the remaining string keys in insertion order.
-/

set_option maxHeartbeats 1000000
set_option maxRecDepth 4000

/-- Character class of the ECMAScript WhiteSpace/LineTerminator set, as used
by `String.prototype.trim` and the `\s` regex class in the source. -/
def isJsWhitespace (c : Char) : Bool :=
  c == '\t' || c == '\n' || c == '\x0b' || c == '\x0c' || c == '\r' || c == ' ' ||
  c == ' ' || c == ' ' || (0x2000 ≤ c.toNat && c.toNat ≤ 0x200A) ||
  c == ' ' || c == ' ' || c == ' ' || c == ' ' ||
  c == '　' || c == '﻿'

/-- Sentence-terminating punctuation of the split regex `[。．.!?！？]`
in `analyzeText`. -/
def isSentenceTerminator (c : Char) : Bool :=
  c == '。' || c == '．' || c == '.' || c == '!' || c == '?' || c == '！' || c == '？'

/-- JavaScript `String.prototype.trim` on a character list: drop leading and
trailing whitespace. -/
def jsTrimList (l : List Char) : List Char :=
  ((l.dropWhile isJsWhitespace).reverse.dropWhile isJsWhitespace).reverse

/-- JavaScript `String.prototype.trim`. -/
def jsTrim (s : String) : String :=
  ⟨jsTrimList s.data⟩

/-- JavaScript `text.split(/[。．.!?！？]/)`: split on any terminator,
keeping empty segments (splitting the empty string yields one empty
segment). -/
def splitOnTerminators : List Char → List (List Char)
  | [] => [[]]
  | c :: rest =>
    let r := splitOnTerminators rest
    if isSentenceTerminator c then
      [] :: r
    else
      match r with
      | s :: ss => (c :: s) :: ss
      | [] => [[c]]

/-- Number of leftmost non-overlapping occurrences of the literal pattern
`pat` in `text`: the length of the array returned by a JS global regex
match with a literal pattern (an empty pattern matches at every position,
including the end, as the JS global scan does). -/
def countMatches (pat : List Char) : List Char → Nat
  | [] => if pat = [] then 1 else 0
  | c :: rest =>
    if pat.isPrefixOf (c :: rest) then
      if pat = [] then 1 + countMatches pat rest
      else 1 + countMatches pat ((c :: rest).drop pat.length)
    else
      countMatches pat rest
termination_by l => l.length
decreasing_by
  · simp
  · have hp : 0 < pat.length := by
      cases pat with
      | nil => simp_all
      | cons a l => simp
    simp only [List.length_drop, List.length_cons]
    omega
  · simp

/-- Global match count of a rule pattern in the input text. -/
def countOccurrences (pat : String) (text : String) : Nat :=
  countMatches pat.data text.data

/-- One entry of the `ambiguousPhrases` rule list. -/
structure AmbiguousPhraseRule where
  text : String
  suggestion : String
deriving DecidableEq

/-- One entry of the `repetitivePatterns` rule list. -/
structure RepetitivePatternRule where
  pattern : String
  suggestion : String
deriving DecidableEq

/-- One entry of the `mediaSpecificRules` rule list. -/
structure MediaSpecificRule where
  pattern : String
  description : String
  mediaType : String
deriving DecidableEq

/-- The normalized rule set built by `getMediaRules` and consumed by
`analyzeText`. -/
structure MediaRules where
  ambiguousPhrases : List AmbiguousPhraseRule
  repetitivePatterns : List RepetitivePatternRule
  mediaSpecificRules : List MediaSpecificRule
deriving DecidableEq

/-- The all-empty rule set. -/
def emptyMediaRules : MediaRules :=
  { ambiguousPhrases := [], repetitivePatterns := [], mediaSpecificRules := [] }

/-- An emitted `ambiguousPhrases` result entry. -/
structure AmbiguousIssue where
  text : String
  count : Nat
  suggestion : String
deriving DecidableEq

/-- An emitted `repetitiveEndings` result entry. -/
structure RepetitiveIssue where
  pattern : String
  count : Nat
  suggestion : String
deriving DecidableEq

/-- An emitted `mediaSpecificIssues` result entry. -/
structure MediaIssue where
  pattern : String
  count : Nat
  description : String
deriving DecidableEq

/-- The result object of `analyzeText`. -/
structure AnalysisResult where
  mediaScore : Int
  ambiguousPhrases : List AmbiguousIssue
  repetitiveEndings : List RepetitiveIssue
  mediaSpecificIssues : List MediaIssue
  improvements : List String
deriving DecidableEq

/-- The zero-valued result object constructed at the top of `analyzeText`
and returned unchanged for empty or whitespace-only input. -/
def emptyAnalysisResult : AnalysisResult :=
  { mediaScore := 0
    ambiguousPhrases := []
    repetitiveEndings := []
    mediaSpecificIssues := []
    improvements := [] }

/-- Suggestion string attached to a repeated-ending issue. -/
def repetitionSuggestion (count : Nat) : String :=
  "語尾の表現を変えてみてください。現在 " ++ toString count ++ " 回使用されています。"

/-- Advisory pushed when the score falls below 70. -/
def baselineAdvisory : String :=
  "曖昧な表現や重複を避け、より具体的で多様な表現を心がけましょう。"

/-- Advisory pushed in detailed mode when the average sentence length
exceeds 50, naming the rounded average. -/
def lengthAdvisory (n : Int) : String :=
  "文が平均" ++ toString n ++ "文字と長めです。短く区切ることを検討してください。"

/-- Advisory pushed in detailed mode when the readability score falls
below 60. -/
def complexityAdvisory : String :=
  "文章が複雑すぎる可能性があります。短い文に分けることを検討してください。"

/-- The `sentences` local of `analyzeText`: raw split segments, including
empty ones. -/
def sentencesOf (text : String) : List (List Char) :=
  splitOnTerminators text.data

/-- Ending key of each retained sentence: the sentence is trimmed, skipped
if empty, and its trailing five characters (the whole sentence when
shorter) form the key, in text order. -/
def endingKeysOf (text : String) : List (List Char) :=
  (sentencesOf text).filterMap (fun s =>
    let trimmed := jsTrimList s
    if trimmed.length = 0 then none
    else some (trimmed.drop (trimmed.length - 5)))

/-- One step of building the `endingPatterns` object: increment the tally
of the key when present, otherwise append it with tally one. -/
def bumpKey (k : List Char) (acc : List (List Char × Nat)) : List (List Char × Nat) :=
  if acc.any (fun p => p.1 == k) then
    acc.map (fun p => if p.1 = k then (p.1, p.2 + 1) else p)
  else
    acc ++ [(k, 1)]

/-- The `endingPatterns` object after the tally loop, as an
insertion-ordered association list. -/
def tallyKeys (keys : List (List Char)) : List (List Char × Nat) :=
  keys.foldl (fun acc k => bumpKey k acc) []

/-- Numeric value of a digit string. -/
def digitsToNat (l : List Char) : Nat :=
  l.foldl (fun n c => n * 10 + (c.toNat - 48)) 0

/-- Whether a string is a canonical ECMAScript array index: a non-empty
digit string without a leading zero (except "0" itself) whose value is
below 2^32 - 1.  Such own-property keys enumerate before all other string
keys. -/
def isArrayIndexKey (l : List Char) : Bool :=
  !l.isEmpty &&
  l.all (fun c => '0' ≤ c && c ≤ '9') &&
  (l.head? != some '0' || l.length == 1) &&
  digitsToNat l < 4294967295

/-- Insert an entry into a list sorted by numeric key value. -/
def insertByVal (p : List Char × Nat) : List (List Char × Nat) → List (List Char × Nat)
  | [] => [p]
  | q :: qs =>
    if digitsToNat p.1 < digitsToNat q.1 then p :: q :: qs
    else q :: insertByVal p qs

/-- Insertion sort by numeric key value. -/
def sortByVal (l : List (List Char × Nat)) : List (List Char × Nat) :=
  l.foldr insertByVal []

/-- `Object.entries` enumeration order on a plain object with string keys:
canonical array-index keys first in ascending numeric order, then the
remaining keys in insertion order. -/
def jsEntriesOrder (assoc : List (List Char × Nat)) : List (List Char × Nat) :=
  sortByVal (assoc.filter (fun p => isArrayIndexKey p.1)) ++
    assoc.filter (fun p => !isArrayIndexKey p.1)

/-- The repeated-ending detection block of `analyzeText`. -/
def detectRepetitiveEndings (text : String) : List RepetitiveIssue :=
  (jsEntriesOrder (tallyKeys (endingKeysOf text))).foldl
    (fun acc p =>
      if 3 ≤ p.2 then
        acc ++ [{ pattern := ⟨p.1⟩, count := p.2, suggestion := repetitionSuggestion p.2 }]
      else acc) []

/-- The ambiguous-phrase detection block of `analyzeText`: for each rule,
match its text globally and push an issue when matches were found. -/
def detectAmbiguousPhrases (text : String) (rules : List AmbiguousPhraseRule) :
    List AmbiguousIssue :=
  rules.foldl
    (fun acc phrase =>
      let c := countOccurrences phrase.text text
      if 0 < c then
        acc ++ [{ text := phrase.text, count := c, suggestion := phrase.suggestion }]
      else acc) []

/-- The media-specific detection block of `analyzeText`. -/
def detectMediaSpecificIssues (text : String) (rules : List MediaSpecificRule) :
    List MediaIssue :=
  rules.foldl
    (fun acc rule =>
      let c := countOccurrences rule.pattern text
      if 0 < c then
        acc ++ [{ pattern := rule.pattern, count := c, description := rule.description }]
      else acc) []

/-- The `averageSentenceLength` local of the detailed branch:
`text.length / sentences.length` in exact arithmetic. -/
def averageSentenceLengthOf (text : String) : ℚ :=
  (text.data.length : ℚ) / ((sentencesOf text).length : ℚ)

/-- The `characterCount` local of the detailed branch: length of the text
with all whitespace removed. -/
def characterCountOf (text : String) : Nat :=
  (text.data.filter (fun c => !isJsWhitespace c)).length

/-- The `readabilityScore` local of the detailed branch. -/
def readabilityScoreOf (text : String) : ℚ :=
  100 - ((characterCountOf text : ℚ) / (((sentencesOf text).length : Nat) : ℚ) / 10)

/-- JavaScript `Math.round`: floor of the argument plus one half. -/
def jsRound (q : ℚ) : Int :=
  Rat.floor (q + 1 / 2)

/-- The improvements list assembled by `analyzeText` after scoring: the
baseline advisory below score 70, and in detailed mode the length and
complexity advisories when their thresholds trigger. -/
def improvementsOf (mediaScore : Int) (text : String) (detailedAnalysis : Bool) :
    List String :=
  (if mediaScore < 70 then [baselineAdvisory] else []) ++
    (if detailedAnalysis then
      (if 50 < averageSentenceLengthOf text then
        [lengthAdvisory (jsRound (averageSentenceLengthOf text))]
      else []) ++
        (if readabilityScoreOf text < 60 then [complexityAdvisory] else [])
    else [])

/-- The text analyzer `analyzeText(text, mediaRules, detailedAnalysis)` on
its non-throwing path: guard on empty or whitespace-only input, detect
the three issue categories, score with a flat five-point penalty per
issue floored at zero, and assemble improvement advisories. -/
def analyzeText (text : String) (mediaRules : MediaRules) (detailedAnalysis : Bool) :
    AnalysisResult :=
  if text = "" ∨ jsTrim text = "" then emptyAnalysisResult
  else
    let ambiguous := detectAmbiguousPhrases text mediaRules.ambiguousPhrases
    let endings := detectRepetitiveEndings text
    let mediaIssues := detectMediaSpecificIssues text mediaRules.mediaSpecificRules
    let totalIssues := ambiguous.length + endings.length + mediaIssues.length
    let mediaScore : Int := max 0 (100 - (totalIssues : Int) * 5)
    { mediaScore := mediaScore
      ambiguousPhrases := ambiguous
      repetitiveEndings := endings
      mediaSpecificIssues := mediaIssues
      improvements := improvementsOf mediaScore text detailedAnalysis }

/-- One persisted style-rule record as read from the rule store, with the
`type` discriminator and the fields the classifier projects. -/
structure StyleRuleDoc where
  type : String
  text : String
  pattern : String
  suggestion : String
  description : String
  mediaType : String
deriving DecidableEq

/-- The classification loop of `getMediaRules`: records are dispatched on
their `type` into the three lists; unrecognized types are dropped. -/
def classifyStyleRules (docs : List StyleRuleDoc) : MediaRules :=
  docs.foldl
    (fun rules data =>
      if data.type = "ambiguousPhrase" then
        { rules with
          ambiguousPhrases :=
            rules.ambiguousPhrases ++ [{ text := data.text, suggestion := data.suggestion }] }
      else if data.type = "repetitivePattern" then
        { rules with
          repetitivePatterns :=
            rules.repetitivePatterns ++
              [{ pattern := data.pattern, suggestion := data.suggestion }] }
      else if data.type = "mediaSpecific" then
        { rules with
          mediaSpecificRules :=
            rules.mediaSpecificRules ++
              [{ pattern := data.pattern, description := data.description,
                 mediaType := data.mediaType }] }
      else rules)
    emptyMediaRules

/-- The rule adapter `getMediaRules`: the store query (active rules,
optionally filtered by media type) runs in the external database, so the
adapter is modelled over the outcome of that fetch; a successful snapshot
is classified, and any fetch failure degrades to the empty rule set. -/
def getMediaRules (snapshot : Except String (List StyleRuleDoc)) : MediaRules :=
  match snapshot with
  | Except.error _ => emptyMediaRules
  | Except.ok docs => classifyStyleRules docs

/-- Error-message prefix attached by the catch block of `analyzeText`. -/
def analysisErrorPrefix : String :=
  "テキスト分析中にエラーが発生しました: "

/-- The ambiguous-phrase loop with an explicit, fallible pattern compiler
(`new RegExp` can throw on a malformed pattern): the first compilation
failure aborts the loop with that error. -/
def detectAmbiguousPhrasesE (compile : String → Except String (String → Nat))
    (text : String) (rules : List AmbiguousPhraseRule) :
    Except String (List AmbiguousIssue) :=
  rules.foldlM
    (fun acc phrase =>
      match compile phrase.text with
      | Except.error e => Except.error e
      | Except.ok counter =>
        let c := counter text
        Except.ok (if 0 < c then
          acc ++ [{ text := phrase.text, count := c, suggestion := phrase.suggestion }]
        else acc))
    []

/-- The media-specific loop with the fallible pattern compiler. -/
def detectMediaSpecificIssuesE (compile : String → Except String (String → Nat))
    (text : String) (rules : List MediaSpecificRule) :
    Except String (List MediaIssue) :=
  rules.foldlM
    (fun acc rule =>
      match compile rule.pattern with
      | Except.error e => Except.error e
      | Except.ok counter =>
        let c := counter text
        Except.ok (if 0 < c then
          acc ++ [{ pattern := rule.pattern, count := c, description := rule.description }]
        else acc))
    []

/-- `analyzeText` with its try/catch failure path made explicit: any
internal error aborts the analysis and is rethrown with a descriptive
message, and no partial result escapes.  The pattern compiler is a
parameter standing for `new RegExp(pattern, "g")` together with the
global match count of the compiled regex. -/
def analyzeTextE (compile : String → Except String (String → Nat)) (text : String)
    (mediaRules : MediaRules) (detailedAnalysis : Bool) : Except String AnalysisResult :=
  Except.mapError (fun msg => analysisErrorPrefix ++ msg)
    (if text = "" ∨ jsTrim text = "" then Except.ok emptyAnalysisResult
     else
       match detectAmbiguousPhrasesE compile text mediaRules.ambiguousPhrases with
       | Except.error e => Except.error e
       | Except.ok ambiguous =>
         let endings := detectRepetitiveEndings text
         match detectMediaSpecificIssuesE compile text mediaRules.mediaSpecificRules with
         | Except.error e => Except.error e
         | Except.ok mediaIssues =>
           let totalIssues := ambiguous.length + endings.length + mediaIssues.length
           let mediaScore : Int := max 0 (100 - (totalIssues : Int) * 5)
           Except.ok
             { mediaScore := mediaScore
               ambiguousPhrases := ambiguous
               repetitiveEndings := endings
               mediaSpecificIssues := mediaIssues
               improvements := improvementsOf mediaScore text detailedAnalysis })

/-! Helper lemmas: push-style folds, trimming, splitting, and the tally. -/

/-- A fold that conditionally appends one element per input is a
`filterMap`. -/
theorem foldl_push_eq_filterMap {α β : Type} (f : α → Option β)
    (g : List β → α → List β) (hg : ∀ acc x, g acc x = acc ++ (f x).toList) :
    ∀ (l : List α) (init : List β), l.foldl g init = init ++ l.filterMap f := by
  intro l
  induction l with
  | nil => intro init; simp
  | cons x xs ih =>
    intro init
    rw [List.foldl_cons, ih, hg, List.filterMap_cons]
    cases f x <;> simp

/-- A `filterMap` whose function is a guarded `some` is a filtered map. -/
theorem filterMap_ite_eq_filter_map {α β : Type} (P : α → Prop) [DecidablePred P] (g : α → β) :
    ∀ l : List α,
      l.filterMap (fun x => if P x then some (g x) else none) =
        (l.filter (fun x => decide (P x))).map g := by
  intro l
  induction l with
  | nil => rfl
  | cons x xs ih =>
    by_cases h : P x
    · simp [List.filterMap_cons, List.filter_cons, h, ih]
    · simp [List.filterMap_cons, List.filter_cons, h, ih]

/-- The ambiguous-phrase detector emits, in rule order, exactly the rules
with a positive match count. -/
theorem detectAmbiguousPhrases_eq_filterMap (text : String)
    (rules : List AmbiguousPhraseRule) :
    detectAmbiguousPhrases text rules =
      rules.filterMap (fun phrase =>
        if 0 < countOccurrences phrase.text text then
          some { text := phrase.text, count := countOccurrences phrase.text text,
                 suggestion := phrase.suggestion }
        else none) := by
  have h := foldl_push_eq_filterMap
    (fun phrase : AmbiguousPhraseRule =>
      if 0 < countOccurrences phrase.text text then
        some ({ text := phrase.text, count := countOccurrences phrase.text text,
                suggestion := phrase.suggestion } : AmbiguousIssue)
      else none)
    (fun acc phrase =>
      let c := countOccurrences phrase.text text
      if 0 < c then
        acc ++ [({ text := phrase.text, count := c,
                   suggestion := phrase.suggestion } : AmbiguousIssue)]
      else acc)
    (by
      intro acc x
      by_cases hx : 0 < countOccurrences x.text text <;> simp [hx])
    rules []
  simpa [detectAmbiguousPhrases] using h

/-- The media-specific detector emits, in rule order, exactly the rules
with a positive match count. -/
theorem detectMediaSpecificIssues_eq_filterMap (text : String)
    (rules : List MediaSpecificRule) :
    detectMediaSpecificIssues text rules =
      rules.filterMap (fun rule =>
        if 0 < countOccurrences rule.pattern text then
          some { pattern := rule.pattern, count := countOccurrences rule.pattern text,
                 description := rule.description }
        else none) := by
  have h := foldl_push_eq_filterMap
    (fun rule : MediaSpecificRule =>
      if 0 < countOccurrences rule.pattern text then
        some ({ pattern := rule.pattern, count := countOccurrences rule.pattern text,
                description := rule.description } : MediaIssue)
      else none)
    (fun acc rule =>
      let c := countOccurrences rule.pattern text
      if 0 < c then
        acc ++ [({ pattern := rule.pattern, count := c,
                   description := rule.description } : MediaIssue)]
      else acc)
    (by
      intro acc x
      by_cases hx : 0 < countOccurrences x.pattern text <;> simp [hx])
    rules []
  simpa [detectMediaSpecificIssues] using h

/-- The repeated-ending detector as a `filterMap` over the enumerated
entries. -/
theorem detectRepetitiveEndings_eq_filterMap (text : String) :
    detectRepetitiveEndings text =
      (jsEntriesOrder (tallyKeys (endingKeysOf text))).filterMap (fun p =>
        if 3 ≤ p.2 then
          some { pattern := ⟨p.1⟩, count := p.2,
                 suggestion := repetitionSuggestion p.2 }
        else none) := by
  have h := foldl_push_eq_filterMap
    (fun p : List Char × Nat =>
      if 3 ≤ p.2 then
        some ({ pattern := (⟨p.1⟩ : String), count := p.2,
                suggestion := repetitionSuggestion p.2 } : RepetitiveIssue)
      else none)
    (fun acc p =>
      if 3 ≤ p.2 then
        acc ++ [({ pattern := (⟨p.1⟩ : String), count := p.2,
                   suggestion := repetitionSuggestion p.2 } : RepetitiveIssue)]
      else acc)
    (by
      intro acc x
      by_cases hx : 3 ≤ x.2 <;> simp [hx])
    (jsEntriesOrder (tallyKeys (endingKeysOf text))) []
  simpa [detectRepetitiveEndings] using h

/-- A character list trims to empty exactly when all of its characters are
whitespace. -/
theorem jsTrimList_eq_nil_iff (l : List Char) :
    jsTrimList l = [] ↔ ∀ c ∈ l, isJsWhitespace c = true := by
  unfold jsTrimList
  rw [List.reverse_eq_nil_iff, List.dropWhile_eq_nil_iff]
  constructor
  · intro h c hc
    rw [← List.takeWhile_append_dropWhile isJsWhitespace l] at hc
    rcases List.mem_append.mp hc with hc | hc
    · exact List.mem_takeWhile_imp hc
    · exact h c (List.mem_reverse.mpr hc)
  · intro h c hc
    exact h c ((List.dropWhile_sublist isJsWhitespace).subset (List.mem_reverse.mp hc))

/-- `jsTrim` on a `String`, in terms of its characters. -/
theorem jsTrim_eq_empty_iff (s : String) :
    jsTrim s = "" ↔ ∀ c ∈ s.data, isJsWhitespace c = true := by
  constructor
  · intro h
    have h2 : jsTrimList s.data = [] := congrArg String.data h
    exact (jsTrimList_eq_nil_iff s.data).mp h2
  · intro h
    have h2 : jsTrimList s.data = [] := (jsTrimList_eq_nil_iff s.data).mpr h
    show (⟨jsTrimList s.data⟩ : String) = ""
    rw [h2]

/-- Sentence terminators are never whitespace. -/
theorem terminator_not_whitespace (c : Char) (h : isSentenceTerminator c = true) :
    isJsWhitespace c = false := by
  simp only [isSentenceTerminator, Bool.or_eq_true, beq_iff_eq] at h
  rcases h with ((((((h | h) | h) | h) | h) | h) | h) <;> subst h <;> decide

/-- Splitting a terminator-free list yields the single raw segment. -/
theorem splitOnTerminators_of_no_terminator (l : List Char)
    (h : ∀ c ∈ l, isSentenceTerminator c = false) : splitOnTerminators l = [l] := by
  induction l with
  | nil => rfl
  | cons c rest ih =>
    have hc : isSentenceTerminator c = false := h c (List.mem_cons_self c rest)
    have hrest : splitOnTerminators rest = [rest] :=
      ih (fun x hx => h x (List.mem_cons_of_mem c hx))
    simp [splitOnTerminators, hc, hrest]

/-- A whitespace-only text contributes no ending keys. -/
theorem endingKeysOf_of_trim_empty (t : String) (h : jsTrim t = "") :
    endingKeysOf t = [] := by
  have hws : ∀ c ∈ t.data, isJsWhitespace c = true := (jsTrim_eq_empty_iff t).mp h
  have hnoterm : ∀ c ∈ t.data, isSentenceTerminator c = false := by
    intro c hc
    by_contra hterm
    simp only [Bool.not_eq_false] at hterm
    have h2 := terminator_not_whitespace c hterm
    rw [hws c hc] at h2
    exact Bool.true_eq_false.mp h2
  have hsplit : sentencesOf t = [t.data] := by
    unfold sentencesOf
    exact splitOnTerminators_of_no_terminator t.data hnoterm
  have htrim : jsTrimList t.data = [] := congrArg String.data h
  unfold endingKeysOf
  rw [hsplit]
  simp [htrim]

/-- The guard condition of `analyzeText` collapses to the trim test. -/
theorem analyzeText_guard_iff (t : String) :
    (t = "" ∨ jsTrim t = "") ↔ jsTrim t = "" := by
  constructor
  · intro h
    rcases h with h | h
    · subst h; rfl
    · exact h
  · exact Or.inr

/-- Distinct keys of a key sequence, in first-occurrence order. -/
def firstOccKeys : List (List Char) → List (List Char)
  | [] => []
  | k :: ks => k :: (firstOccKeys ks).filter (fun x => x != k)

/-- Pointwise equal predicates give equal `any` results. -/
theorem any_congr_mem {α : Type} (l : List α) (p q : α → Bool)
    (h : ∀ a ∈ l, p a = q a) : l.any p = l.any q := by
  induction l with
  | nil => rfl
  | cons x xs ih =>
    simp only [List.any_cons]
    rw [h x (List.mem_cons_self x xs), ih (fun a ha => h a (List.mem_cons_of_mem x ha))]

/-- Membership in the first-occurrence keys is membership in the keys. -/
theorem mem_firstOccKeys (x : List Char) :
    ∀ l : List (List Char), x ∈ firstOccKeys l ↔ x ∈ l := by
  intro l
  induction l with
  | nil => simp [firstOccKeys]
  | cons k ks ih =>
    simp only [firstOccKeys, List.mem_cons, List.mem_filter, ih, bne_iff_ne, ne_eq]
    by_cases hx : x = k
    · simp [hx]
    · simp [hx]

/-- The first-occurrence keys contain no duplicates. -/
theorem nodup_firstOccKeys : ∀ l : List (List Char), (firstOccKeys l).Nodup := by
  intro l
  induction l with
  | nil => simp [firstOccKeys]
  | cons k ks ih =>
    rw [firstOccKeys, List.nodup_cons]
    constructor
    · intro hmem
      have h2 := (List.mem_filter.mp hmem).2
      simp at h2
    · exact List.Nodup.filter _ ih

/-- Taking first occurrences commutes with filtering. -/
theorem firstOccKeys_filter (q : List Char → Bool) :
    ∀ l : List (List Char), firstOccKeys (l.filter q) = (firstOccKeys l).filter q := by
  intro l
  induction l with
  | nil => rfl
  | cons x xs ih =>
    by_cases hx : q x = true
    · rw [List.filter_cons_of_pos hx]
      show x :: (firstOccKeys (xs.filter q)).filter (fun a => a != x) =
        (x :: (firstOccKeys xs).filter (fun a => a != x)).filter q
      rw [List.filter_cons_of_pos hx, ih, List.filter_filter, List.filter_filter]
      congr 1
      apply List.filter_congr
      intro a _
      rw [Bool.and_comm]
    · have hx2 : q x = false := by simpa using hx
      rw [List.filter_cons_of_neg (by simp [hx2])]
      show firstOccKeys (xs.filter q) =
        (x :: (firstOccKeys xs).filter (fun a => a != x)).filter q
      rw [List.filter_cons_of_neg (by simp [hx2]), ih, List.filter_filter]
      apply List.filter_congr
      intro a _
      by_cases hax : a = x
      · subst hax; simp [hx2]
      · simp [hax]

/-- Bumping an existing key leaves the key sequence unchanged. -/
theorem keysOf_bumpKey_of_mem (k : List Char) (acc : List (List Char × Nat))
    (h : acc.any (fun p => p.1 == k) = true) :
    (bumpKey k acc).map Prod.fst = acc.map Prod.fst := by
  unfold bumpKey
  rw [if_pos h, List.map_map]
  apply List.map_congr_left
  intro p hp
  by_cases hpk : p.1 = k <;> simp [hpk]

/-- The accumulated tally after folding over the remaining keys: existing
entries gain the key counts of the suffix, and fresh keys are appended in
first-occurrence order with their counts. -/
theorem foldl_bumpKey (keys : List (List Char)) :
    ∀ acc : List (List Char × Nat), (acc.map Prod.fst).Nodup →
      keys.foldl (fun a k => bumpKey k a) acc =
        acc.map (fun p => (p.1, p.2 + keys.count p.1)) ++
          (firstOccKeys (keys.filter
            (fun k => !(acc.any (fun p => p.1 == k))))).map
            (fun k => (k, keys.count k)) := by
  induction keys with
  | nil =>
    intro acc hnd
    simp [firstOccKeys]
  | cons k ks ih =>
    intro acc hnd
    rw [List.foldl_cons]
    by_cases hmem : acc.any (fun p => p.1 == k) = true
    · have hbk : bumpKey k acc =
          acc.map (fun p => if p.1 = k then (p.1, p.2 + 1) else p) := by
        unfold bumpKey; rw [if_pos hmem]
      have hnd2 : ((bumpKey k acc).map Prod.fst).Nodup := by
        rw [keysOf_bumpKey_of_mem k acc hmem]; exact hnd
      rw [ih (bumpKey k acc) hnd2]
      congr 1
      · rw [hbk, List.map_map]
        apply List.map_congr_left
        intro p hp
        by_cases hpk : p.1 = k
        · have hred : ((fun p : List Char × Nat => (p.1, p.2 + ks.count p.1)) ∘
              (fun p : List Char × Nat => if p.1 = k then (p.1, p.2 + 1) else p)) p
              = (p.1, p.2 + 1 + ks.count p.1) := by
            simp only [Function.comp_apply, if_pos hpk]
          rw [hred, hpk, List.count_cons_self, Prod.mk.injEq]
          exact ⟨rfl, by omega⟩
        · have hred : ((fun p : List Char × Nat => (p.1, p.2 + ks.count p.1)) ∘
              (fun p : List Char × Nat => if p.1 = k then (p.1, p.2 + 1) else p)) p
              = (p.1, p.2 + ks.count p.1) := by
            simp only [Function.comp_apply, if_neg hpk]
          rw [hred, List.count_cons_of_ne hpk]
      · have hpred : ∀ k2 ∈ ks,
            (!((bumpKey k acc).any (fun p => p.1 == k2)))
              = (!(acc.any (fun p => p.1 == k2))) := by
          intro k2 _
          rw [hbk, List.any_map]
          have h4 : acc.any ((fun p : List Char × Nat => p.1 == k2) ∘
                (fun p : List Char × Nat => if p.1 = k then (p.1, p.2 + 1) else p))
              = acc.any (fun p => p.1 == k2) := by
            apply any_congr_mem
            intro p _
            by_cases hpk : p.1 = k <;> simp [hpk]
          rw [h4]
        rw [List.filter_congr hpred]
        have hfc : (k :: ks).filter (fun k2 => !(acc.any (fun p => p.1 == k2)))
            = ks.filter (fun k2 => !(acc.any (fun p => p.1 == k2))) := by
          apply List.filter_cons_of_neg
          rw [hmem]
          simp
        rw [hfc]
        apply List.map_congr_left
        intro k2 hk2
        have hk2f : k2 ∈ ks.filter (fun k2 => !(acc.any (fun p => p.1 == k2))) :=
          (mem_firstOccKeys _ _).mp hk2
        have hP := (List.mem_filter.mp hk2f).2
        have hne : k2 ≠ k := by
          intro heq
          subst heq
          rw [hmem] at hP
          simp at hP
        rw [List.count_cons_of_ne hne]
    · have hmemf : acc.any (fun p => p.1 == k) = false := by
        cases hval : acc.any (fun p => p.1 == k) with
        | false => rfl
        | true => exact absurd hval hmem
      have hknotin : ∀ p ∈ acc, p.1 ≠ k := by
        intro p hp heq
        have h2 : acc.any (fun p => p.1 == k) = true :=
          List.any_eq_true.mpr ⟨p, hp, by simp [heq]⟩
        exact absurd h2 hmem
      have hbk : bumpKey k acc = acc ++ [(k, 1)] := by
        unfold bumpKey; rw [if_neg hmem]
      have hnd2 : (((acc ++ [(k, 1)]).map Prod.fst)).Nodup := by
        rw [List.map_append, List.nodup_append]
        refine ⟨hnd, by simp, ?_⟩
        intro a ha
        simp only [List.map_cons, List.map_nil, List.mem_singleton]
        intro hb
        subst hb
        rcases List.mem_map.mp ha with ⟨p, hp, hpa⟩
        exact hknotin p hp hpa
      rw [hbk, ih (acc ++ [(k, 1)]) hnd2]
      have hktrue : (!(acc.any (fun p => p.1 == k))) = true := by
        rw [hmemf]; rfl
      have hfc : (k :: ks).filter (fun k2 => !(acc.any (fun p => p.1 == k2)))
          = k :: ks.filter (fun k2 => !(acc.any (fun p => p.1 == k2))) :=
        List.filter_cons_of_pos hktrue
      rw [hfc]
      show (acc ++ [(k, 1)]).map (fun p : List Char × Nat => (p.1, p.2 + ks.count p.1)) ++
          (firstOccKeys (ks.filter
            (fun k2 => !((acc ++ [(k, 1)]).any (fun p => p.1 == k2))))).map
            (fun k2 : List Char => (k2, ks.count k2)) =
        acc.map (fun p : List Char × Nat => (p.1, p.2 + (k :: ks).count p.1)) ++
          (k :: (firstOccKeys (ks.filter
            (fun k2 => !(acc.any (fun p => p.1 == k2))))).filter
            (fun x => x != k)).map (fun k2 : List Char => (k2, (k :: ks).count k2))
      rw [List.map_append, List.map_cons]
      have hmapacc : acc.map (fun p => (p.1, p.2 + ks.count p.1)) =
          acc.map (fun p => (p.1, p.2 + (k :: ks).count p.1)) := by
        apply List.map_congr_left
        intro p hp
        rw [List.count_cons_of_ne (hknotin p hp)]
      have hfocc : (firstOccKeys (ks.filter
            (fun k2 => !(acc.any (fun p => p.1 == k2))))).filter (fun x => x != k) =
          firstOccKeys (ks.filter
            (fun k2 => !((acc ++ [(k, 1)]).any (fun p => p.1 == k2)))) := by
        rw [← firstOccKeys_filter, List.filter_filter]
        congr 1
        apply List.filter_congr
        intro a _
        by_cases hak : a = k
        · subst hak; simp
        · have hka : (k == a) = false := by
            simp only [beq_eq_false_iff_ne, ne_eq]
            exact fun h => hak (Eq.symm h)
          have hka2 : (a != k) = true := bne_iff_ne.mpr hak
          by_cases hacc : acc.any (fun p => p.1 == a) = true <;>
            simp [hacc, hka, hka2]
      have htail : (firstOccKeys (ks.filter
            (fun k2 => !((acc ++ [(k, 1)]).any (fun p => p.1 == k2))))).map
            (fun k2 => (k2, ks.count k2)) =
          ((firstOccKeys (ks.filter
            (fun k2 => !(acc.any (fun p => p.1 == k2))))).filter (fun x => x != k)).map
            (fun k2 => (k2, (k :: ks).count k2)) := by
        rw [hfocc]
        apply List.map_congr_left
        intro k2 hk2
        have hk2f := (List.mem_filter.mp ((mem_firstOccKeys _ _).mp hk2))
        have hne : k2 ≠ k := by
          have h3 := hk2f.2
          simp only [List.any_append] at h3
          intro heq
          subst heq
          simp at h3
        rw [List.count_cons_of_ne hne]
      rw [htail, ← hmapacc]
      simp only [List.map_cons, List.map_nil, List.nil_append, List.append_assoc,
        List.cons_append, List.singleton_append]
      congr 2
      rw [Prod.mk.injEq]
      refine ⟨rfl, ?_⟩
      rw [List.count_cons_self]
      omega

/-- The tally object maps each distinct ending key, in first-occurrence
order, to its number of occurrences. -/
theorem tallyKeys_eq (keys : List (List Char)) :
    tallyKeys keys = (firstOccKeys keys).map (fun k => (k, keys.count k)) := by
  unfold tallyKeys
  rw [foldl_bumpKey keys [] (by simp)]
  simp

/-- Tally membership: each entry pairs a key of the sequence with its
occurrence count. -/
theorem mem_tallyKeys (k : List Char) (c : Nat) (keys : List (List Char)) :
    (k, c) ∈ tallyKeys keys ↔ k ∈ keys ∧ c = keys.count k := by
  rw [tallyKeys_eq, List.mem_map]
  constructor
  · rintro ⟨x, hx, hxe⟩
    rw [Prod.mk.injEq] at hxe
    obtain ⟨h1, h2⟩ := hxe
    subst h1
    exact ⟨(mem_firstOccKeys x keys).mp hx, h2.symm⟩
  · rintro ⟨hk, hc⟩
    exact ⟨k, (mem_firstOccKeys k keys).mpr hk, by rw [hc]⟩

/-- Inserting preserves membership up to the inserted element. -/
theorem mem_insertByVal (x p : List Char × Nat) :
    ∀ l : List (List Char × Nat), x ∈ insertByVal p l ↔ x = p ∨ x ∈ l := by
  intro l
  induction l with
  | nil => simp [insertByVal]
  | cons q qs ih =>
    unfold insertByVal
    by_cases h : digitsToNat p.1 < digitsToNat q.1
    · rw [if_pos h]
      simp [List.mem_cons]
    · rw [if_neg h]
      simp only [List.mem_cons, ih]
      tauto

/-- Insertion produces a permutation of the cons. -/
theorem insertByVal_perm (p : List Char × Nat) :
    ∀ l : List (List Char × Nat), List.Perm (insertByVal p l) (p :: l) := by
  intro l
  induction l with
  | nil => exact List.Perm.refl _
  | cons q qs ih =>
    unfold insertByVal
    by_cases h : digitsToNat p.1 < digitsToNat q.1
    · rw [if_pos h]
    · rw [if_neg h]
      exact List.Perm.trans (List.Perm.cons q ih) (List.Perm.swap p q qs)

/-- The numeric sort is a permutation. -/
theorem sortByVal_perm : ∀ l : List (List Char × Nat), List.Perm (sortByVal l) l := by
  intro l
  induction l with
  | nil => exact List.Perm.refl _
  | cons q qs ih =>
    show List.Perm (insertByVal q (sortByVal qs)) (q :: qs)
    exact List.Perm.trans (insertByVal_perm q _) (List.Perm.cons q ih)

/-- Reordering entries for enumeration is a permutation. -/
theorem jsEntriesOrder_perm (assoc : List (List Char × Nat)) :
    List.Perm (jsEntriesOrder assoc) assoc := by
  unfold jsEntriesOrder
  exact List.Perm.trans
    (List.Perm.append_right _ (sortByVal_perm _))
    (List.filter_append_perm _ assoc)

/-- Enumeration-order membership is association-list membership. -/
theorem mem_jsEntriesOrder (x : List Char × Nat) (assoc : List (List Char × Nat)) :
    x ∈ jsEntriesOrder assoc ↔ x ∈ assoc :=
  (jsEntriesOrder_perm assoc).mem_iff

/-- The enumerated tally of a key sequence has pairwise distinct keys. -/
theorem nodup_keys_jsEntriesOrder (keys : List (List Char)) :
    ((jsEntriesOrder (tallyKeys keys)).map Prod.fst).Nodup := by
  have hperm : List.Perm ((jsEntriesOrder (tallyKeys keys)).map Prod.fst)
      ((tallyKeys keys).map Prod.fst) :=
    (jsEntriesOrder_perm _).map Prod.fst
  rw [hperm.nodup_iff]
  rw [tallyKeys_eq, List.map_map]
  have hid : (Prod.fst ∘ fun k : List Char => (k, keys.count k)) = id := by
    funext k
    rfl
  rw [hid, List.map_id]
  exact nodup_firstOccKeys keys

/-- If no key is an array index, enumeration preserves insertion order. -/
theorem jsEntriesOrder_of_no_index (assoc : List (List Char × Nat))
    (h : ∀ p ∈ assoc, isArrayIndexKey p.1 = false) : jsEntriesOrder assoc = assoc := by
  unfold jsEntriesOrder
  have h1 : assoc.filter (fun p => isArrayIndexKey p.1) = [] := by
    rw [List.filter_eq_nil_iff]
    intro a ha
    rw [h a ha]
    simp
  have h2 : assoc.filter (fun p => !isArrayIndexKey p.1) = assoc := by
    rw [List.filter_eq_self]
    intro a ha
    rw [h a ha]
    rfl
  rw [h1, h2]
  rfl

/-- Characterization of the emitted repeated-ending issues: one entry per
distinct ending key whose tally reaches three, carrying the exact count
and the count-naming suggestion. -/
theorem mem_detectRepetitiveEndings (text : String) (e : RepetitiveIssue) :
    e ∈ detectRepetitiveEndings text ↔
      e.pattern.data ∈ endingKeysOf text ∧
      e.count = (endingKeysOf text).count e.pattern.data ∧
      3 ≤ e.count ∧ e.suggestion = repetitionSuggestion e.count := by
  obtain ⟨pat, cnt, sug⟩ := e
  rw [detectRepetitiveEndings_eq_filterMap, List.mem_filterMap]
  constructor
  · rintro ⟨p, hp, hpe⟩
    by_cases h3 : 3 ≤ p.2
    · rw [if_pos h3] at hpe
      have hrec := Option.some.inj hpe
      rw [RepetitiveIssue.mk.injEq] at hrec
      obtain ⟨hpat, hcnt, hsug⟩ := hrec
      have hpt : (p.1, p.2) ∈ tallyKeys (endingKeysOf text) :=
        (mem_jsEntriesOrder p _).mp hp
      obtain ⟨hk, hc⟩ := (mem_tallyKeys p.1 p.2 _).mp hpt
      subst hpat
      subst hcnt
      subst hsug
      exact ⟨hk, hc, h3, rfl⟩
    · rw [if_neg h3] at hpe
      simp at hpe
  · rintro ⟨hk, hc, h3, hs⟩
    refine ⟨(pat.data, cnt), ?_, ?_⟩
    · apply (mem_jsEntriesOrder _ _).mpr
      exact (mem_tallyKeys _ _ _).mpr ⟨hk, hc⟩
    · rw [if_pos h3]
      rw [Option.some.injEq, RepetitiveIssue.mk.injEq]
      exact ⟨rfl, rfl, hs.symm⟩

/-- The emitted repeated-ending patterns are pairwise distinct. -/
theorem nodup_detectRepetitiveEndings (text : String) :
    ((detectRepetitiveEndings text).map (fun e => e.pattern)).Nodup := by
  rw [detectRepetitiveEndings_eq_filterMap, List.map_filterMap]
  have h1 : (fun p : List Char × Nat =>
      (if 3 ≤ p.2 then
        some ({ pattern := (⟨p.1⟩ : String), count := p.2,
                suggestion := repetitionSuggestion p.2 } : RepetitiveIssue)
      else none).map (fun e => e.pattern))
      = (fun p : List Char × Nat => if 3 ≤ p.2 then some ((⟨p.1⟩ : String)) else none) := by
    funext p
    by_cases h : 3 ≤ p.2 <;> simp [h]
  rw [h1, filterMap_ite_eq_filter_map (fun p : List Char × Nat => 3 ≤ p.2)
    (fun p => (⟨p.1⟩ : String))]
  have h2 : ((jsEntriesOrder (tallyKeys (endingKeysOf text))).filter
      (fun p => decide (3 ≤ p.2))).map (fun p => (⟨p.1⟩ : String))
      = (((jsEntriesOrder (tallyKeys (endingKeysOf text))).filter
      (fun p => decide (3 ≤ p.2))).map Prod.fst).map (fun l => (⟨l⟩ : String)) := by
    rw [List.map_map]
    rfl
  rw [h2]
  apply List.Nodup.map
  · intro a b hab
    exact congrArg String.data hab
  · have hsub : List.Sublist (((jsEntriesOrder (tallyKeys (endingKeysOf text))).filter
        (fun p => decide (3 ≤ p.2))).map Prod.fst)
        ((jsEntriesOrder (tallyKeys (endingKeysOf text))).map Prod.fst) :=
      (List.filter_sublist _).map Prod.fst
    exact (nodup_keys_jsEntriesOrder (endingKeysOf text)).sublist hsub

/-- Normal form of `analyzeText` on non-empty, non-whitespace input. -/
theorem analyzeText_of_trim_ne (text : String) (rules : MediaRules) (detailed : Bool)
    (h : jsTrim text ≠ "") :
    analyzeText text rules detailed =
      { mediaScore := max 0 (100 -
          (((detectAmbiguousPhrases text rules.ambiguousPhrases).length +
            (detectRepetitiveEndings text).length +
            (detectMediaSpecificIssues text rules.mediaSpecificRules).length : Nat) : Int) * 5)
        ambiguousPhrases := detectAmbiguousPhrases text rules.ambiguousPhrases
        repetitiveEndings := detectRepetitiveEndings text
        mediaSpecificIssues := detectMediaSpecificIssues text rules.mediaSpecificRules
        improvements := improvementsOf
          (max 0 (100 -
            (((detectAmbiguousPhrases text rules.ambiguousPhrases).length +
              (detectRepetitiveEndings text).length +
              (detectMediaSpecificIssues text rules.mediaSpecificRules).length : Nat) : Int) * 5))
          text detailed } := by
  have hg : ¬(text = "" ∨ jsTrim text = "") := by
    rw [analyzeText_guard_iff]
    exact h
  unfold analyzeText
  rw [if_neg hg]

/-- The length advisory never coincides with the baseline advisory, for any
rounded average. -/
theorem lengthAdvisory_ne_baselineAdvisory (n : Int) :
    lengthAdvisory n ≠ baselineAdvisory := by
  intro h
  have h1 : (lengthAdvisory n).data.head? = baselineAdvisory.data.head? := by rw [h]
  have h2 : (lengthAdvisory n).data.head? = some '文' := rfl
  have h3 : baselineAdvisory.data.head? = some '曖' := rfl
  rw [h2, h3] at h1
  exact absurd (Option.some.inj h1) (by decide)

/-- The length advisory never coincides with the complexity advisory, for
any rounded average. -/
theorem lengthAdvisory_ne_complexityAdvisory (n : Int) :
    lengthAdvisory n ≠ complexityAdvisory := by
  intro h
  have h1 : (lengthAdvisory n).data.tail.head? = complexityAdvisory.data.tail.head? := by
    rw [h]
  have h2 : (lengthAdvisory n).data.tail.head? = some 'が' := rfl
  have h3 : complexityAdvisory.data.tail.head? = some '章' := rfl
  rw [h2, h3] at h1
  exact absurd (Option.some.inj h1) (by decide)

/-- The complexity and baseline advisories are distinct strings. -/
theorem complexityAdvisory_ne_baselineAdvisory :
    complexityAdvisory ≠ baselineAdvisory := by decide

/-- Membership in the assembled improvements list, by advisory source. -/
theorem mem_improvementsOf (s : Int) (text : String) (d : Bool) (x : String) :
    x ∈ improvementsOf s text d ↔
      (s < 70 ∧ x = baselineAdvisory) ∨
      (d = true ∧ 50 < averageSentenceLengthOf text ∧
        x = lengthAdvisory (jsRound (averageSentenceLengthOf text))) ∨
      (d = true ∧ readabilityScoreOf text < 60 ∧ x = complexityAdvisory) := by
  cases d with
  | false =>
    by_cases h1 : s < 70 <;> simp [improvementsOf, h1]
  | true =>
    by_cases h1 : s < 70 <;> by_cases h2 : 50 < averageSentenceLengthOf text <;>
      by_cases h3 : readabilityScoreOf text < 60 <;>
        simp [improvementsOf, h1, h2, h3, List.mem_append]

/-- If some list element always fails the step, the monadic fold fails. -/
theorem foldlM_error_of_mem {ε α β : Type} (f : β → α → Except ε β) (x : α) :
    ∀ l : List α, x ∈ l → (∀ acc, ∃ e, f acc x = Except.error e) →
      ∀ init, ∃ e, l.foldlM f init = Except.error e := by
  intro l
  induction l with
  | nil =>
    intro h
    simp at h
  | cons y ys ih =>
    intro hmem hfail init
    rw [List.foldlM_cons]
    rcases List.mem_cons.mp hmem with heq | hmem2
    · subst heq
      obtain ⟨e, he⟩ := hfail init
      rw [he]
      exact ⟨e, rfl⟩
    · cases hf : f init y with
      | error e =>
        exact ⟨e, rfl⟩
      | ok b =>
        exact ih hmem2 hfail b

/-- If every step succeeds, the monadic fold succeeds. -/
theorem foldlM_ok_of_forall {ε α β : Type} (f : β → α → Except ε β) :
    ∀ l : List α, (∀ x ∈ l, ∀ acc, ∃ b, f acc x = Except.ok b) →
      ∀ init, ∃ res, l.foldlM f init = Except.ok res := by
  intro l
  induction l with
  | nil =>
    intro _ init
    exact ⟨init, rfl⟩
  | cons y ys ih =>
    intro h init
    obtain ⟨b, hb⟩ := h y (List.mem_cons_self y ys) init
    rw [List.foldlM_cons, hb]
    exact ih (fun x hx acc => h x (List.mem_cons_of_mem y hx) acc) b

/-- A fold whose steps all return `ok` of a pure step is `ok` of the pure
fold. -/
theorem foldlM_ok_of_eq {ε α β : Type} (f : β → α → Except ε β) (g : β → α → β)
    (hfg : ∀ acc x, f acc x = Except.ok (g acc x)) :
    ∀ (l : List α) (init : β), l.foldlM f init = Except.ok (l.foldl g init) := by
  intro l
  induction l with
  | nil =>
    intro init
    rfl
  | cons x xs ih =>
    intro init
    rw [List.foldlM_cons, hfg init x, List.foldl_cons]
    exact ih (g init x)

/-- A failing pattern among the ambiguous rules fails the whole loop. -/
theorem detectAmbiguousPhrasesE_error (compile : String → Except String (String → Nat))
    (text : String) (rules : List AmbiguousPhraseRule) (phrase : AmbiguousPhraseRule)
    (hp : phrase ∈ rules) (he : ∃ e, compile phrase.text = Except.error e) :
    ∃ e, detectAmbiguousPhrasesE compile text rules = Except.error e := by
  unfold detectAmbiguousPhrasesE
  apply foldlM_error_of_mem _ phrase rules hp
  intro acc
  obtain ⟨e, he2⟩ := he
  exact ⟨e, by rw [he2]⟩

/-- If every ambiguous pattern compiles, the loop succeeds. -/
theorem detectAmbiguousPhrasesE_ok (compile : String → Except String (String → Nat))
    (text : String) (rules : List AmbiguousPhraseRule)
    (h : ∀ p ∈ rules, ∃ k, compile p.text = Except.ok k) :
    ∃ res, detectAmbiguousPhrasesE compile text rules = Except.ok res := by
  unfold detectAmbiguousPhrasesE
  apply foldlM_ok_of_forall _ rules _ []
  intro x hx acc
  obtain ⟨k, hk⟩ := h x hx
  exact ⟨_, by rw [hk]⟩

/-- A failing pattern among the media rules fails the whole loop. -/
theorem detectMediaSpecificIssuesE_error (compile : String → Except String (String → Nat))
    (text : String) (rules : List MediaSpecificRule) (rule : MediaSpecificRule)
    (hp : rule ∈ rules) (he : ∃ e, compile rule.pattern = Except.error e) :
    ∃ e, detectMediaSpecificIssuesE compile text rules = Except.error e := by
  unfold detectMediaSpecificIssuesE
  apply foldlM_error_of_mem _ rule rules hp
  intro acc
  obtain ⟨e, he2⟩ := he
  exact ⟨e, by rw [he2]⟩

/-- The analyzer with the literal-pattern compiler never throws and agrees
with the total analyzer. -/
theorem analyzeTextE_literal_compile (text : String) (rules : MediaRules) (detailed : Bool) :
    analyzeTextE (fun pat => Except.ok (fun t => countOccurrences pat t)) text rules detailed
      = Except.ok (analyzeText text rules detailed) := by
  by_cases hg : text = "" ∨ jsTrim text = ""
  · unfold analyzeTextE analyzeText
    rw [if_pos hg, if_pos hg]
    rfl
  · have hA : detectAmbiguousPhrasesE (fun pat => Except.ok (fun t => countOccurrences pat t))
        text rules.ambiguousPhrases
        = Except.ok (detectAmbiguousPhrases text rules.ambiguousPhrases) := by
      unfold detectAmbiguousPhrasesE detectAmbiguousPhrases
      apply foldlM_ok_of_eq
      intro acc x
      rfl
    have hM : detectMediaSpecificIssuesE (fun pat => Except.ok (fun t => countOccurrences pat t))
        text rules.mediaSpecificRules
        = Except.ok (detectMediaSpecificIssues text rules.mediaSpecificRules) := by
      unfold detectMediaSpecificIssuesE detectMediaSpecificIssues
      apply foldlM_ok_of_eq
      intro acc x
      rfl
    unfold analyzeTextE analyzeText
    rw [if_neg hg, if_neg hg, hA, hM]
    rfl

/-! Claim theorems. -/

/-- C1: for every non-empty, non-whitespace-only input and every rule set,
the returned score is `max(0, 100 - 5 * totalIssues)` over the emitted
issue lists, an integer in `[0, 100]`, equal to 85 for 3 issues and to 0
(not negative) for 25 issues. -/
theorem analyzeText_score_formula (text : String) (rules : MediaRules) (detailed : Bool)
    (h : jsTrim text ≠ "") :
    (analyzeText text rules detailed).mediaScore =
      max 0 (100 - 5 * (((analyzeText text rules detailed).ambiguousPhrases.length : Int) +
        ((analyzeText text rules detailed).repetitiveEndings.length : Int) +
        ((analyzeText text rules detailed).mediaSpecificIssues.length : Int))) ∧
    0 ≤ (analyzeText text rules detailed).mediaScore ∧
    (analyzeText text rules detailed).mediaScore ≤ 100 ∧
    ((analyzeText text rules detailed).ambiguousPhrases.length +
        (analyzeText text rules detailed).repetitiveEndings.length +
        (analyzeText text rules detailed).mediaSpecificIssues.length = 3 →
      (analyzeText text rules detailed).mediaScore = 85) ∧
    ((analyzeText text rules detailed).ambiguousPhrases.length +
        (analyzeText text rules detailed).repetitiveEndings.length +
        (analyzeText text rules detailed).mediaSpecificIssues.length = 25 →
      (analyzeText text rules detailed).mediaScore = 0) := by
  rw [analyzeText_of_trim_ne text rules detailed h]
  dsimp only
  refine ⟨?_, ?_, ?_, ?_, ?_⟩
  · congr 1
    push_cast
    ring
  · exact le_max_left 0 _
  · apply max_le
    · norm_num
    · omega
  · intro htot
    rw [htot]
    decide
  · intro htot
    rw [htot]
    decide

/-- Witness for C1 at a concrete input. -/
theorem analyzeText_score_formula_witness :
    jsTrim "これはペンです。" ≠ "" ∧
    0 ≤ (analyzeText "これはペンです。" emptyMediaRules false).mediaScore ∧
    (analyzeText "これはペンです。" emptyMediaRules false).mediaScore ≤ 100 :=
  ⟨by decide,
   (analyzeText_score_formula "これはペンです。" emptyMediaRules false (by decide)).2.1,
   (analyzeText_score_formula "これはペンです。" emptyMediaRules false (by decide)).2.2.1⟩

/-- C2: empty or whitespace-only input yields the zero-valued result with
all four lists empty, for every rule set and detailed flag. -/
theorem analyzeText_empty_input (text : String) (rules : MediaRules) (detailed : Bool)
    (h : jsTrim text = "") :
    analyzeText text rules detailed =
      { mediaScore := 0, ambiguousPhrases := [], repetitiveEndings := [],
        mediaSpecificIssues := [], improvements := [] } := by
  unfold analyzeText
  rw [if_pos (Or.inr h)]
  rfl

/-- Witness for C2 at a whitespace-only input. -/
theorem analyzeText_empty_input_witness :
    jsTrim "   " = "" ∧
    analyzeText "   " emptyMediaRules true =
      { mediaScore := 0, ambiguousPhrases := [], repetitiveEndings := [],
        mediaSpecificIssues := [], improvements := [] } :=
  ⟨by decide, analyzeText_empty_input "   " emptyMediaRules true (by decide)⟩

/-- C3: an ending key (the trailing five characters of a non-empty trimmed
sentence) is emitted exactly when its tally reaches three; each emitted
entry carries the exact count and the count-naming suggestion, and there
is exactly one entry per distinct key. -/
theorem analyzeText_repetitiveEndings_threshold (text : String) (rules : MediaRules)
    (detailed : Bool) (h : jsTrim text ≠ "") :
    (∀ e, e ∈ (analyzeText text rules detailed).repetitiveEndings ↔
      (e.pattern.data ∈ endingKeysOf text ∧
       e.count = (endingKeysOf text).count e.pattern.data ∧
       3 ≤ e.count ∧ e.suggestion = repetitionSuggestion e.count)) ∧
    ((analyzeText text rules detailed).repetitiveEndings.map (fun e => e.pattern)).Nodup := by
  rw [analyzeText_of_trim_ne text rules detailed h]
  dsimp only
  exact ⟨fun e => mem_detectRepetitiveEndings text e, nodup_detectRepetitiveEndings text⟩

/-- Witness for C3: three sentences with a shared ending. -/
theorem analyzeText_repetitiveEndings_threshold_witness :
    jsTrim "です。です。です。" ≠ "" ∧
    ((analyzeText "です。です。です。" emptyMediaRules false).repetitiveEndings.map
      (fun e => e.pattern)).Nodup ∧
    (analyzeText "です。です。です。" emptyMediaRules false).repetitiveEndings =
      [{ pattern := "です", count := 3, suggestion := repetitionSuggestion 3 }] :=
  ⟨by decide,
   (analyzeText_repetitiveEndings_threshold "です。です。です。" emptyMediaRules false
     (by decide)).2,
   by decide⟩

/-- C5: each phrase and media rule is counted by a global case-sensitive
scan for non-overlapping matches; an entry is emitted exactly when the
count is positive, in the order of the rule list. -/
theorem analyzeText_phrase_detection (text : String) (rules : MediaRules) (detailed : Bool)
    (h : jsTrim text ≠ "") :
    (analyzeText text rules detailed).ambiguousPhrases =
      rules.ambiguousPhrases.filterMap (fun phrase =>
        if 0 < countOccurrences phrase.text text then
          some { text := phrase.text, count := countOccurrences phrase.text text,
                 suggestion := phrase.suggestion }
        else none) ∧
    (analyzeText text rules detailed).mediaSpecificIssues =
      rules.mediaSpecificRules.filterMap (fun rule =>
        if 0 < countOccurrences rule.pattern text then
          some { pattern := rule.pattern, count := countOccurrences rule.pattern text,
                 description := rule.description }
        else none) := by
  rw [analyzeText_of_trim_ne text rules detailed h]
  exact ⟨detectAmbiguousPhrases_eq_filterMap text rules.ambiguousPhrases,
         detectMediaSpecificIssues_eq_filterMap text rules.mediaSpecificRules⟩

/-- Witness for C5 at the documented example: two matches of とても. -/
theorem analyzeText_phrase_detection_witness :
    jsTrim "とても良い、とても悪い" ≠ "" ∧
    (analyzeText "とても良い、とても悪い"
      { ambiguousPhrases := [{ text := "とても", suggestion := "具体的な表現に" }],
        repetitivePatterns := [], mediaSpecificRules := [] } false).ambiguousPhrases =
      [{ text := "とても", count := 2, suggestion := "具体的な表現に" }] := by
  refine ⟨by decide, ?_⟩
  rw [(analyzeText_phrase_detection "とても良い、とても悪い"
    { ambiguousPhrases := [{ text := "とても", suggestion := "具体的な表現に" }],
      repetitivePatterns := [], mediaSpecificRules := [] } false (by decide)).1]
  have hc : countOccurrences "とても" "とても良い、とても悪い" = 2 := by
    simp [countOccurrences, countMatches, List.isPrefixOf]
  simp [hc]

/-- C10: two rule sets differing only in `repetitivePatterns` produce
identical analysis results for every text and flag. -/
theorem analyzeText_ignores_repetitivePatterns (text : String) (detailed : Bool)
    (r1 r2 : MediaRules) (h1 : r1.ambiguousPhrases = r2.ambiguousPhrases)
    (h2 : r1.mediaSpecificRules = r2.mediaSpecificRules) :
    analyzeText text r1 detailed = analyzeText text r2 detailed := by
  obtain ⟨a1, p1, m1⟩ := r1
  obtain ⟨a2, p2, m2⟩ := r2
  have ha : a1 = a2 := h1
  have hm : m1 = m2 := h2
  subst ha
  subst hm
  rfl

/-- Witness for C10: a populated and an empty repetitive-pattern list. -/
theorem analyzeText_ignores_repetitivePatterns_witness :
    ({ ambiguousPhrases := [],
       repetitivePatterns := [{ pattern := "でした", suggestion := "言い換え" }],
       mediaSpecificRules := [] } : MediaRules).ambiguousPhrases =
      emptyMediaRules.ambiguousPhrases ∧
    ({ ambiguousPhrases := [],
       repetitivePatterns := [{ pattern := "でした", suggestion := "言い換え" }],
       mediaSpecificRules := [] } : MediaRules).mediaSpecificRules =
      emptyMediaRules.mediaSpecificRules ∧
    analyzeText "テスト。"
      { ambiguousPhrases := [],
        repetitivePatterns := [{ pattern := "でした", suggestion := "言い換え" }],
        mediaSpecificRules := [] } true =
      analyzeText "テスト。" emptyMediaRules true :=
  ⟨rfl, rfl,
   analyzeText_ignores_repetitivePatterns "テスト。" true _ _ rfl rfl⟩

/-- C4 counterexample: with three sentences ending in ある and three
ending in the numeric string 12, the entries are emitted with 12 first,
although ある is the first-occurring ending key — emission does not follow
first-occurrence order. -/
theorem analyzeText_endings_order_counterexample :
    ((analyzeText "ある。ある。ある。12。12。12。" emptyMediaRules false).repetitiveEndings.map
      (fun e => e.pattern)) = ["12", "ある"] ∧
    (firstOccKeys (endingKeysOf "ある。ある。ある。12。12。12。")).map
      (fun l => (⟨l⟩ : String)) = ["ある", "12"] := by
  constructor
  · decide
  · decide

/-- C4 amended: when no ending key is a canonical array-index string, the
entries are emitted in first-occurrence order of the distinct keys,
restricted to keys whose tally reaches three. -/
theorem analyzeText_endings_first_occurrence_order (text : String) (rules : MediaRules)
    (detailed : Bool) (h : ∀ k ∈ endingKeysOf text, isArrayIndexKey k = false) :
    (analyzeText text rules detailed).repetitiveEndings.map (fun e => e.pattern) =
      ((firstOccKeys (endingKeysOf text)).filter
        (fun k => decide (3 ≤ (endingKeysOf text).count k))).map
        (fun k => (⟨k⟩ : String)) := by
  by_cases hg : jsTrim text = ""
  · have hek : endingKeysOf text = [] := endingKeysOf_of_trim_empty text hg
    unfold analyzeText
    rw [if_pos (Or.inr hg), hek]
    rfl
  · rw [analyzeText_of_trim_ne text rules detailed hg]
    dsimp only
    rw [detectRepetitiveEndings_eq_filterMap]
    have hnoidx : ∀ p ∈ tallyKeys (endingKeysOf text), isArrayIndexKey p.1 = false := by
      intro p hp
      have hp2 : (p.1, p.2) ∈ tallyKeys (endingKeysOf text) := hp
      obtain ⟨hk, _⟩ := (mem_tallyKeys p.1 p.2 _).mp hp2
      exact h p.1 hk
    rw [jsEntriesOrder_of_no_index _ hnoidx, tallyKeys_eq]
    rw [List.map_filterMap, List.filterMap_map]
    have hfun : ((fun x : List Char × Nat =>
        Option.map (fun e => e.pattern)
          (if 3 ≤ x.2 then
            some ({ pattern := (⟨x.1⟩ : String), count := x.2,
                    suggestion := repetitionSuggestion x.2 } : RepetitiveIssue)
          else none)) ∘ (fun k : List Char => (k, (endingKeysOf text).count k)))
        = fun k : List Char =>
            if 3 ≤ (endingKeysOf text).count k then some ((⟨k⟩ : String)) else none := by
      funext k
      by_cases h3 : 3 ≤ (endingKeysOf text).count k <;>
        simp [Function.comp, h3]
    rw [hfun]
    rw [filterMap_ite_eq_filter_map (fun k : List Char => 3 ≤ (endingKeysOf text).count k)
      (fun k => (⟨k⟩ : String))]

/-- Witness for the amended C4: no numeric ending keys, emission in
first-occurrence order. -/
theorem analyzeText_endings_first_occurrence_order_witness :
    (∀ k ∈ endingKeysOf "ある。ある。ある。", isArrayIndexKey k = false) ∧
    (analyzeText "ある。ある。ある。" emptyMediaRules false).repetitiveEndings.map
      (fun e => e.pattern) =
      ((firstOccKeys (endingKeysOf "ある。ある。ある。")).filter
        (fun k => decide (3 ≤ (endingKeysOf "ある。ある。ある。").count k))).map
        (fun k => (⟨k⟩ : String)) :=
  ⟨by decide,
   analyzeText_endings_first_occurrence_order "ある。ある。ある。" emptyMediaRules false
     (by decide)⟩

/-- C6: with the detailed flag off no length or readability advisory is
appended, only possibly the baseline advisory; with it on, the advisory
naming the rounded average is present exactly when the average sentence
length over the raw split segments exceeds 50. -/
theorem analyzeText_detailed_gating (text : String) (rules : MediaRules)
    (h : jsTrim text ≠ "") :
    ((analyzeText text rules false).improvements =
      if (analyzeText text rules false).mediaScore < 70 then [baselineAdvisory] else []) ∧
    (lengthAdvisory (jsRound (averageSentenceLengthOf text)) ∈
        (analyzeText text rules true).improvements ↔
      50 < averageSentenceLengthOf text) := by
  constructor
  · rw [analyzeText_of_trim_ne text rules false h]
    dsimp only
    unfold improvementsOf
    simp
  · rw [analyzeText_of_trim_ne text rules true h]
    dsimp only
    rw [mem_improvementsOf]
    constructor
    · rintro (⟨_, hx⟩ | ⟨_, h2, _⟩ | ⟨_, _, hx⟩)
      · exact absurd hx (lengthAdvisory_ne_baselineAdvisory _)
      · exact h2
      · exact absurd hx (lengthAdvisory_ne_complexityAdvisory _)
    · intro h2
      exact Or.inr (Or.inl ⟨rfl, h2, rfl⟩)

/-- Witness for C6 at a concrete input. -/
theorem analyzeText_detailed_gating_witness :
    jsTrim "テスト。" ≠ "" ∧
    ((analyzeText "テスト。" emptyMediaRules false).improvements =
      if (analyzeText "テスト。" emptyMediaRules false).mediaScore < 70 then
        [baselineAdvisory]
      else []) :=
  ⟨by decide, (analyzeText_detailed_gating "テスト。" emptyMediaRules (by decide)).1⟩

/-- C7: in detailed mode the complexity advisory is appended exactly when
`100 - (characterCount / sentenceCount / 10)` falls below 60, with the
character count taken over the text with all whitespace removed and the
sentence count over the raw split segments. -/
theorem analyzeText_readability_advisory (text : String) (rules : MediaRules)
    (h : jsTrim text ≠ "") :
    complexityAdvisory ∈ (analyzeText text rules true).improvements ↔
      readabilityScoreOf text < 60 := by
  rw [analyzeText_of_trim_ne text rules true h]
  dsimp only
  rw [mem_improvementsOf]
  constructor
  · rintro (⟨_, hx⟩ | ⟨_, _, hx⟩ | ⟨_, h3, _⟩)
    · exact absurd hx complexityAdvisory_ne_baselineAdvisory
    · exact absurd hx.symm (lengthAdvisory_ne_complexityAdvisory _)
    · exact h3
  · intro h3
    exact Or.inr (Or.inr ⟨rfl, h3, rfl⟩)

/-- Witness for C7 at a concrete input. -/
theorem analyzeText_readability_advisory_witness :
    jsTrim "テスト。" ≠ "" ∧
    (complexityAdvisory ∈ (analyzeText "テスト。" emptyMediaRules true).improvements ↔
      readabilityScoreOf "テスト。" < 60) :=
  ⟨by decide, analyzeText_readability_advisory "テスト。" emptyMediaRules (by decide)⟩

/-- C8: the rule adapter always yields a well-formed rule set: any fetch
failure degrades to the empty rule set instead of propagating, and a
snapshot with zero records classifies to empty lists rather than a
missing-field error. -/
theorem getMediaRules_fallback :
    (∀ msg : String, getMediaRules (Except.error msg) = emptyMediaRules) ∧
    getMediaRules (Except.ok []) = emptyMediaRules ∧
    (∀ snapshot : Except String (List StyleRuleDoc),
      getMediaRules snapshot =
        { ambiguousPhrases := (getMediaRules snapshot).ambiguousPhrases,
          repetitivePatterns := (getMediaRules snapshot).repetitivePatterns,
          mediaSpecificRules := (getMediaRules snapshot).mediaSpecificRules }) :=
  ⟨fun _ => rfl, rfl, fun _ => rfl⟩

/-- C9: the analyzer surfaces internal failures: on empty input the guard
returns the defined empty result regardless of the rule patterns, and on
non-empty input any rule whose pattern fails to compile makes the whole
analysis return an error carrying the descriptive message prefix — no
partial result is produced. -/
theorem analyzeTextE_failure_semantics (compile : String → Except String (String → Nat))
    (text : String) (rules : MediaRules) (detailed : Bool) :
    (jsTrim text = "" →
      analyzeTextE compile text rules detailed = Except.ok emptyAnalysisResult) ∧
    (jsTrim text ≠ "" →
      (∃ p, (p ∈ rules.ambiguousPhrases.map (fun r => r.text) ++
          rules.mediaSpecificRules.map (fun r => r.pattern)) ∧
        ∃ e, compile p = Except.error e) →
      ∃ msg, analyzeTextE compile text rules detailed =
        Except.error (analysisErrorPrefix ++ msg)) := by
  constructor
  · intro hg
    unfold analyzeTextE
    rw [if_pos (Or.inr hg)]
    rfl
  · intro hg hfail
    have hgneg : ¬(text = "" ∨ jsTrim text = "") := by
      rw [analyzeText_guard_iff]
      exact hg
    obtain ⟨p, hmem, e, he⟩ := hfail
    by_cases hA : ∃ q ∈ rules.ambiguousPhrases, ∃ e2, compile q.text = Except.error e2
    · obtain ⟨q, hq, e2, he2⟩ := hA
      obtain ⟨e3, he3⟩ :=
        detectAmbiguousPhrasesE_error compile text rules.ambiguousPhrases q hq ⟨e2, he2⟩
      refine ⟨e3, ?_⟩
      unfold analyzeTextE
      rw [if_neg hgneg, he3]
      rfl
    · have hok : ∀ q ∈ rules.ambiguousPhrases, ∃ k, compile q.text = Except.ok k := by
        intro q hq
        cases hc : compile q.text with
        | ok k => exact ⟨k, rfl⟩
        | error e2 => exact absurd ⟨q, hq, e2, hc⟩ hA
      obtain ⟨resA, hresA⟩ :=
        detectAmbiguousPhrasesE_ok compile text rules.ambiguousPhrases hok
      have hpm : p ∈ rules.mediaSpecificRules.map (fun r => r.pattern) := by
        rcases List.mem_append.mp hmem with hma | hmm2
        · obtain ⟨q, hq, hqp⟩ := List.mem_map.mp hma
          exact absurd ⟨q, hq, e, by rw [hqp]; exact he⟩ hA
        · exact hmm2
      obtain ⟨r, hr, hrp⟩ := List.mem_map.mp hpm
      obtain ⟨e4, he4⟩ :=
        detectMediaSpecificIssuesE_error compile text rules.mediaSpecificRules r hr
          ⟨e, by rw [hrp]; exact he⟩
      refine ⟨e4, ?_⟩
      unfold analyzeTextE
      rw [if_neg hgneg, hresA, he4]
      rfl

/-- Witness for C9: a compiler that rejects every pattern makes the
analysis of a non-empty text fail with the descriptive prefix. -/
theorem analyzeTextE_failure_semantics_witness :
    jsTrim "テスト。" ≠ "" ∧
    (∃ msg, analyzeTextE (fun _ => Except.error "Invalid regular expression")
      "テスト。"
      { ambiguousPhrases := [{ text := "(", suggestion := "修正" }],
        repetitivePatterns := [], mediaSpecificRules := [] } false =
      Except.error (analysisErrorPrefix ++ msg)) := by
  refine ⟨by decide, ?_⟩
  apply (analyzeTextE_failure_semantics (fun _ => Except.error "Invalid regular expression")
    "テスト。"
    { ambiguousPhrases := [{ text := "(", suggestion := "修正" }],
      repetitivePatterns := [], mediaSpecificRules := [] } false).2 (by decide)
  exact ⟨"(", by simp, "Invalid regular expression", rfl⟩
